import Mathlib

/-!
Verification development for the AI-driven smart-city traffic simulation
(`src/ai_city/sim_grid_2x2.py` and `src/ai_city/sim_one_intersection.py`).

The pure controller policies are translated directly from the Python source.
The cooperative discrete-event kernel (SimPy) is not part of the repository
sources; its scheduling semantics (min-heap of `(wake_time, sequence_number)`
wakeups, FIFO stores, deterministic tie-breaks) are modelled from the spec,
sections 4.1-4.3 and 5.

Conventions:
* simulation time ranges over an arbitrary linear ordered commutative ring
  `T`; the Python float clock is the `T = ℚ` instance, and concrete runs in
  counterexamples and witnesses use `T = ℤ` (every duration appearing in
  those scenarios is integral);
* queue contents are lists of `(vehicle id, join time)` pairs: the Python
  `simpy.Store` holds `Vehicle` objects, each carrying its
  `last_queue_enter` field, which we record alongside the id;
* intersections A, B, C, D are indexed by `Fin 4` in that order.
-/

namespace AiCity

/-- Signal phase / approach direction (`"NS"` or `"EW"` strings in the source). -/
inductive Phase where
  | NS : Phase
  | EW : Phase
  deriving DecidableEq, Repr

/-- Controller decision (`"HOLD"` or `"SWITCH"` strings in the source). -/
inductive Action where
  | HOLD : Action
  | SWITCH : Action
  deriving DecidableEq, Repr

/-- The other phase (`"EW" if self.phase == "NS" else "NS"`). -/
def Phase.flip : Phase → Phase
  | .NS => .EW
  | .EW => .NS

/-- Vehicle identity: (generator index, running counter), modelling the
`f"{prefix}-{i}"` string ids of `poisson_generator`. -/
abbrev Vid := Fin 4 × ℕ

/-! ### Generic discrete-event kernel (modelled from the spec, sections 4.1-4.2, 5)

The kernel keeps pending wakeups `(wake_time, sequence_number, process)` and
repeatedly pops the least one under the lexicographic order (time first,
sequence number as the deterministic tie-break), stopping at the horizon as
`env.run(until=...)` does. -/

section Kernel

variable (T P S : Type)

/-- A scheduled wakeup: `(wake_time, sequence_number, process)`. -/
structure Ev where
  time : T
  seq : ℕ
  proc : P
  deriving DecidableEq, Repr

/-- A discrete-event machine: its pending wakeups and its firing function
(which advances the clock, removes the wakeup and runs the process body). -/
structure DES where
  evts : S → List (Ev T P)
  fireEv : S → Ev T P → S

variable {T P S}
variable [LinearOrder T]

/-- Heap order on wakeups: earlier time first, sequence number tie-break. -/
def Ev.le (a b : Ev T P) : Prop :=
  a.time < b.time ∨ (a.time = b.time ∧ a.seq ≤ b.seq)

instance : DecidableRel (Ev.le (T := T) (P := P)) := fun a b => by
  unfold Ev.le; infer_instance

/-- `e` is the wakeup the kernel pops next: pending and minimal. -/
def IsNext (l : List (Ev T P)) (e : Ev T P) : Prop :=
  e ∈ l ∧ ∀ x ∈ l, e.le x

/-- Executable minimum of the pending list. -/
def nextEv : List (Ev T P) → Option (Ev T P)
  | [] => none
  | e :: rest =>
    match nextEv rest with
    | none => some e
    | some m => if m.le e then some m else some e

/-- One kernel step under horizon `h`: pop the earliest wakeup and execute it
only if its time is below the horizon (`env.run(until=h)`). -/
def DES.StepH (M : DES T P S) (h : T) (s s' : S) : Prop :=
  ∃ e, IsNext (M.evts s) e ∧ e.time < h ∧ s' = M.fireEv s e

/-- `n` kernel steps under horizon `h`. -/
inductive DES.TraceH (M : DES T P S) (h : T) : S → ℕ → S → Prop where
  | refl (s : S) : DES.TraceH M h s 0 s
  | step {s s' s'' : S} {n : ℕ} :
      M.StepH h s s' → DES.TraceH M h s' n s'' → DES.TraceH M h s (n + 1) s''

/-- The run is complete: every pending wakeup is at or beyond the horizon. -/
def DES.DoneH (M : DES T P S) (h : T) (s : S) : Prop :=
  ∀ e ∈ M.evts s, h ≤ e.time

instance (M : DES T P S) (h : T) (s : S) : Decidable (M.DoneH h s) :=
  inferInstanceAs (Decidable (∀ e ∈ M.evts s, h ≤ e.time))

/-- Pending sequence numbers are pairwise distinct (SimPy's `eid` counter
increases monotonically at scheduling time). -/
def DES.SeqOk (M : DES T P S) (s : S) : Prop :=
  ((M.evts s).map Ev.seq).Nodup

instance (M : DES T P S) (s : S) : Decidable (M.SeqOk s) :=
  inferInstanceAs (Decidable ((M.evts s).map Ev.seq).Nodup)

/-- Well-formed pending list relative to the next fresh sequence number:
pairwise distinct sequence numbers, all below the counter. -/
def EvOk (evs : List (Ev T P)) (n : ℕ) : Prop :=
  (evs.map Ev.seq).Nodup ∧ ∀ e ∈ evs, e.seq < n

/-- Executable kernel step (`none` when the run is complete). -/
def DES.stepF (M : DES T P S) (h : T) (s : S) : Option S :=
  match nextEv (M.evts s) with
  | none => none
  | some e => if e.time < h then some (M.fireEv s e) else none

/-- Executable `n`-step runner. -/
def DES.runSteps (M : DES T P S) (h : T) : ℕ → S → Option S
  | 0, s => some s
  | n + 1, s =>
    match M.stepF h s with
    | none => none
    | some s' => M.runSteps h n s'

end Kernel

section Defs

variable (T : Type) [LinearOrderedCommRing T]

/-- State of one `Intersection` of `sim_grid_2x2.py` as read by the
controllers and mutated by the three loops: current phase, `phase_start`,
the two fairness counters and the two FIFO stores. -/
structure IState where
  phase : Phase
  phase_start : T
  red_wait_ns : ℕ
  red_wait_ew : ℕ
  q_ns : List (Vid × T)
  q_ew : List (Vid × T)
  deriving DecidableEq

variable {T}

/-- `Intersection.queues`: `(len(self.q_ns.items), len(self.q_ew.items))`. -/
def IState.queues (st : IState T) : ℕ × ℕ :=
  (st.q_ns.length, st.q_ew.length)

variable (T)

/-- `FixedTimeController` configuration (grid version, a dataclass). -/
structure FixedCfg where
  green_ns : T
  green_ew : T
  deriving DecidableEq

variable {T}

/-- `FixedTimeController.decide` from `sim_grid_2x2.py` lines 17-24. -/
def FixedCfg.decide (c : FixedCfg T) (inter : IState T) (now : T) : Action × T :=
  let time_in := now - inter.phase_start
  if inter.phase = .NS ∧ time_in ≥ c.green_ns then (.SWITCH, 0)
  else if inter.phase = .EW ∧ time_in ≥ c.green_ew then (.SWITCH, 0)
  else (.HOLD, 1)

variable (T)

/-- `ActuatedController` configuration (dataclass fields, lines 27-32). -/
structure ActuatedCfg where
  min_green : T
  max_green : T
  bias_threshold : ℕ
  force_switch_wait : ℕ
  deriving DecidableEq

variable {T}

/-- `ActuatedController.decide` from `sim_grid_2x2.py` lines 34-60,
translated statement by statement (early returns become nested ites). -/
def ActuatedCfg.decide (c : ActuatedCfg T) (inter : IState T) (now : T) : Action × T :=
  let qns := (inter.queues).1
  let qew := (inter.queues).2
  let time_in := now - inter.phase_start
  -- If we've been green too long, force switch
  if time_in ≥ c.max_green then (.SWITCH, 0)
  -- Enforce minimum green
  else if time_in < c.min_green then (.HOLD, 1)
  -- Fairness: if red direction has been waiting too long, switch
  else if inter.phase = .NS ∧ inter.red_wait_ew ≥ c.force_switch_wait ∧ qew > 0 then (.SWITCH, 0)
  else if inter.phase = .EW ∧ inter.red_wait_ns ≥ c.force_switch_wait ∧ qns > 0 then (.SWITCH, 0)
  -- Pressure rule: switch if opposite queue is significantly larger
  else if inter.phase = .NS then
    if qew > qns + c.bias_threshold then (.SWITCH, 0) else (.HOLD, 1)
  else
    if qns > qew + c.bias_threshold then (.SWITCH, 0) else (.HOLD, 1)

/-- The dataclass-generated constructor of `ActuatedController`: it stores
the four fields unconditionally; no validation happens. -/
def ActuatedCfg.make (min_green max_green : T)
    (bias_threshold force_switch_wait : ℕ) : ActuatedCfg T :=
  { min_green := min_green, max_green := max_green,
    bias_threshold := bias_threshold, force_switch_wait := force_switch_wait }

variable (T)

/-- `DecisionTreeTrafficController` configuration (lines 64-68); the
`model_path` only matters for loading the external artifact, which is
abstracted into a `predict` function (spec section 6: the core requires only
`predict(feature_vector) -> {0,1}`). -/
structure DTCfg where
  min_green : T
  max_green : T
  deriving DecidableEq

variable {T}

/-- The dataclass constructor of `DecisionTreeTrafficController`
(its `__post_init__` loads the model artifact but performs no validation of
`min_green`/`max_green`). -/
def DTCfg.make (min_green max_green : T) : DTCfg T :=
  { min_green := min_green, max_green := max_green }

/-- `DecisionTreeTrafficController.decide` from `sim_grid_2x2.py`
lines 73-87.  `predict` stands for `int(self.model.predict(X)[0])` applied
to one feature row. -/
def DTCfg.decide (predict : List T → ℤ) (c : DTCfg T) (inter : IState T) (now : T) :
    Action × T :=
  let qns := (inter.queues).1
  let qew := (inter.queues).2
  let time_in := now - inter.phase_start
  let phase_is_ns : T := if inter.phase = .NS then 1 else 0
  -- Safety constraints (prevents rapid flip-flopping)
  if time_in < c.min_green then (.HOLD, 1)
  else if time_in ≥ c.max_green then (.SWITCH, 0)
  else
    let X : List T := [qns, qew, phase_is_ns, time_in,
                       inter.red_wait_ns, inter.red_wait_ew]
    let pred_switch := predict X
    if pred_switch = 1 then (.SWITCH, 0) else (.HOLD, 1)

/-! ### Spec-side restatements of the controller rule orders

These two definitions follow the *spec's words* (sections 4.4 / claim texts)
rather than the source, so that the correspondence theorems compare two
independently written artifacts. -/

/-- The red direction's fairness counter as named by the spec. -/
def IState.redWaitOfRed (st : IState T) : ℕ :=
  match st.phase with
  | .NS => st.red_wait_ew
  | .EW => st.red_wait_ns

/-- The red (non-green) direction's queue length. -/
def IState.redQueueLen (st : IState T) : ℕ :=
  match st.phase with
  | .NS => st.q_ew.length
  | .EW => st.q_ns.length

/-- The green direction's queue length. -/
def IState.greenQueueLen (st : IState T) : ℕ :=
  match st.phase with
  | .NS => st.q_ns.length
  | .EW => st.q_ew.length

/-- The 5 Actuated rules as worded by the spec/claim C1, first match wins:
(1) `time_in_phase >= max_green` gives SWITCH; (2) `time_in_phase < min_green`
gives HOLD; (3) red direction starved beyond `force_switch_wait` with a
non-empty queue gives SWITCH; (4) red queue exceeds green queue by more than
`bias_threshold` gives SWITCH; (5) otherwise HOLD. -/
def actuatedSpecRules (c : ActuatedCfg T) (st : IState T) (now : T) : Action × T :=
  let time_in_phase := now - st.phase_start
  if time_in_phase ≥ c.max_green then (.SWITCH, 0)
  else if time_in_phase < c.min_green then (.HOLD, 1)
  else if st.redWaitOfRed ≥ c.force_switch_wait ∧ 0 < st.redQueueLen then (.SWITCH, 0)
  else if st.greenQueueLen + c.bias_threshold < st.redQueueLen then (.SWITCH, 0)
  else (.HOLD, 1)

/-- The Learned rules as worded by claim C7: min-green guard first, then
max-green guard, then the external classifier on the feature vector
`[queue_ns, queue_ew, phase_is_ns, time_in_phase, red_wait_ns, red_wait_ew]`. -/
def dtSpecRules (predict : List T → ℤ) (c : DTCfg T) (st : IState T) (now : T) :
    Action × T :=
  let time_in_phase := now - st.phase_start
  if time_in_phase < c.min_green then (.HOLD, 1)
  else if time_in_phase ≥ c.max_green then (.SWITCH, 0)
  else if predict [((st.queues).1 : T), ((st.queues).2 : T),
      (if st.phase = .NS then 1 else 0), time_in_phase,
      (st.red_wait_ns : T), (st.red_wait_ew : T)] = 1 then (.SWITCH, 0)
  else (.HOLD, 1)

variable (T)

/-- The shared actuated configuration built by `build_grid_2x2`
(`min_green=8, max_green=40, bias_threshold=4, force_switch_wait=60`,
which also coincides with the dataclass defaults). -/
def gridActuated : ActuatedCfg T :=
  ActuatedCfg.make 8 40 4 60

/-- A throwaway concrete intersection state used by witnesses. -/
def sampleState : IState T :=
  { phase := .NS, phase_start := 0, red_wait_ns := 0, red_wait_ew := 0,
    q_ns := [], q_ew := [] }

variable {T}

/-! ### The grid simulation machine

A shallow embedding of `run()` / `build_grid_2x2()` from `sim_grid_2x2.py` on
top of a discrete-event kernel modelled from the spec (sections 4.1-4.3, 5):
a pending-event list ordered by `(wake_time, sequence_number)`, one process
resumed per step, no clock regression.  Randomness is modelled by a stream
`ℕ → T` of pre-sampled durations (the single seeded global generator: the
`k`-th call to `random.uniform(6,14)` / `random.expovariate(...)` during the
run yields the `k`-th stream value; the stream is a deterministic function of
the seed and configuration). -/

/-- Process identifiers: the three loops of each intersection, the arrival
generators (whose first loop iteration draws the first gap), the monitor, and
the per-vehicle stages of `vehicle_process` (travel draw, queue join,
post-release resumption). -/
inductive Proc where
  | sigP (i : Fin 4)
  | relP (i : Fin 4)
  | fairP (i : Fin 4)
  | genStart (g : Fin 4)
  | genP (g : Fin 4)
  | monP
  | vehGo (v : Vid)
  | vehArrive (v : Vid)
  | vehRel (v : Vid)
  deriving DecidableEq, Repr

variable (T)

/-- The closed set of controller variants dispatched by `build_grid_2x2`. -/
inductive Controller where
  | fixed (cfg : FixedCfg T)
  | actuated (cfg : ActuatedCfg T)
  | dt (cfg : DTCfg T)
  deriving DecidableEq

variable {T}

/-- Polymorphic `controller.decide(self, now)` dispatch. -/
def Controller.decide (predict : List T → ℤ) :
    Controller T → IState T → T → Action × T
  | .fixed cfg => cfg.decide
  | .actuated cfg => cfg.decide
  | .dt cfg => DTCfg.decide predict cfg

/-- Per-vehicle state of `vehicle_process`: the route, the index of the
current leg, and the accumulated `total_wait`.  The vehicle's
`last_queue_enter` lives in the queue entry holding the vehicle. -/
structure VState (T : Type) where
  route : List (Fin 4 × Phase)
  legIdx : ℕ
  total_wait : T
  deriving DecidableEq

variable (T)

/-- Ghost record of one `v.join_queue(env.now)`/`q.put(v)` pair. -/
structure JoinRec where
  inter : Fin 4
  dir : Phase
  vid : Vid
  tj : T
  deriving DecidableEq

/-- Ghost record of one dequeue by `release_process` (`dir` is the phase that
was green, `tj` the released vehicle's `last_queue_enter`, `tr` the time). -/
structure RelRec where
  inter : Fin 4
  dir : Phase
  vid : Vid
  tj : T
  tr : T
  deriving DecidableEq

/-- One entry of `log_events` (signal decision or vehicle release). -/
inductive LogRec where
  | sig (t : T) (inter : Fin 4) (phase : Phase) (q_ns q_ew : ℕ) (action : Action)
  | rel (t : T) (inter : Fin 4) (vid : Vid) (phase : Phase)
  deriving DecidableEq

/-- One `monitor` snapshot row: `t` plus `(q_ns, q_ew, phase)` for A,B,C,D. -/
structure SnapRec where
  t : T
  rows : List (ℕ × ℕ × Phase)
  deriving DecidableEq

/-- One completion record appended by `vehicle_process` when the route ends. -/
structure DoneRec where
  vid : Vid
  finish_t : T
  total_wait : T
  deriving DecidableEq

/-- The immutable run configuration supplied at startup (spec section 6):
service time, the controller of each intersection (shared by reference in
`build_grid_2x2`), the external classifier, and the seed-determined random
stream (absorbing seed and arrival rates). -/
structure GCfg where
  serv : T
  ctrls : Fin 4 → Controller T
  predict : List T → ℤ
  stream : ℕ → T

/-- Full machine state: virtual clock, the four intersections, vehicle table,
generator counters, pending events, sequence counter, the random stream's
consumption index, the three output logs, and the two ghost logs. -/
structure GState where
  now : T
  inters : Fin 4 → IState T
  vehs : List (Vid × VState T)
  genCount : Fin 4 → ℕ
  events : List (Ev T Proc)
  nextSeq : ℕ
  rngIdx : ℕ
  log_events : List (LogRec T)
  snapshots : List (SnapRec T)
  done : List (DoneRec T)
  ghJoins : List (JoinRec T)
  ghRels : List (RelRec T)

variable {T}

/-- Schedule a wakeup at time `t`, consuming the next sequence number. -/
def sched (t : T) (p : Proc) (s : GState T) : GState T :=
  { s with events := s.events ++ [⟨t, s.nextSeq, p⟩], nextSeq := s.nextSeq + 1 }

/-- Consume the next value of the seeded random stream. -/
def draw (cfg : GCfg T) (s : GState T) : T × GState T :=
  (cfg.stream s.rngIdx, { s with rngIdx := s.rngIdx + 1 })

/-- Point update of one intersection. -/
def updInter (i : Fin 4) (f : IState T → IState T) (s : GState T) : GState T :=
  { s with inters := fun j => if j = i then f (s.inters j) else s.inters j }

/-- Point update of one vehicle's state. -/
def updVeh (v : Vid) (f : VState T → VState T) (s : GState T) : GState T :=
  { s with vehs := s.vehs.map fun p => if p.1 = v then (p.1, f p.2) else p }

/-- The body of `Intersection.fairness_clock` (lines 141-147): increment the
red direction's counter, zero the green direction's counter. -/
def fairTick (st : IState T) : IState T :=
  match st.phase with
  | .NS => { st with red_wait_ew := st.red_wait_ew + 1, red_wait_ns := 0 }
  | .EW => { st with red_wait_ns := st.red_wait_ns + 1, red_wait_ew := 0 }

/-- The store of the given direction. -/
def IState.queueOf (st : IState T) : Phase → List (Vid × T)
  | .NS => st.q_ns
  | .EW => st.q_ew

/-- Replace the store of the given direction. -/
def IState.setQueue (st : IState T) : Phase → List (Vid × T) → IState T
  | .NS, q => { st with q_ns := q }
  | .EW, q => { st with q_ew := q }

/-- `Store.put`: append at the tail (put never blocks, unbounded capacity). -/
def IState.pushQueue (st : IState T) (d : Phase) (x : Vid × T) : IState T :=
  st.setQueue d (st.queueOf d ++ [x])

/-- The four entry routes of `run()`:
`W2E_T = A→B (EW)`, `W2E_B = C→D (EW)`, `N2S_L = A→C (NS)`, `N2S_R = B→D (NS)`. -/
def routeOf : Fin 4 → List (Fin 4 × Phase)
  | 0 => [(0, .EW), (1, .EW)]
  | 1 => [(2, .EW), (3, .EW)]
  | 2 => [(0, .NS), (2, .NS)]
  | 3 => [(1, .NS), (3, .NS)]

/-- One iteration of `Intersection.signal_process` (lines 150-169): decide,
apply a SWITCH, log the post-decision record, sleep `recheck_delay`. -/
def execSig (cfg : GCfg T) (i : Fin 4) (s : GState T) : GState T :=
  let ad := (cfg.ctrls i).decide cfg.predict (s.inters i) s.now
  let s1 := if ad.1 = .SWITCH
    then updInter i (fun st => { st with phase := st.phase.flip, phase_start := s.now }) s
    else s
  let st1 := s1.inters i
  let s2 := { s1 with log_events := s1.log_events ++
      [.sig s.now i st1.phase st1.q_ns.length st1.q_ew.length ad.1] }
  sched (s.now + ad.2) (.sigP i) s2

/-- One iteration of `Intersection.release_process` (lines 171-186): inspect
the green store; if non-empty dequeue its head, update the vehicle's wait,
log the release, resume the vehicle at the current instant; in either case
sleep `service_time`. -/
def execRel (cfg : GCfg T) (i : Fin 4) (s : GState T) : GState T :=
  let st := s.inters i
  match st.queueOf st.phase with
  | [] => sched (s.now + cfg.serv) (.relP i) s
  | (v, tj) :: rest =>
    let s1 := updInter i (fun st2 => st2.setQueue st2.phase rest) s
    let s2 := updVeh v (fun vs => { vs with total_wait := vs.total_wait + (s.now - tj) }) s1
    let s3 := { s2 with
      log_events := s2.log_events ++ [.rel s.now i v st.phase],
      ghRels := s2.ghRels ++ [⟨i, st.phase, v, tj, s.now⟩] }
    sched (s.now + cfg.serv) (.relP i) (sched s.now (.vehRel v) s3)

/-- One iteration of `Intersection.fairness_clock`: tick, sleep 1. -/
def execFair (i : Fin 4) (s : GState T) : GState T :=
  sched (s.now + 1) (.fairP i) (updInter i fairTick s)

/-- One iteration of `monitor` (interval 1). -/
def execMon (s : GState T) : GState T :=
  let rows := (List.finRange 4).map fun i =>
    ((s.inters i).q_ns.length, (s.inters i).q_ew.length, (s.inters i).phase)
  sched (s.now + 1) .monP { s with snapshots := s.snapshots ++ [⟨s.now, rows⟩] }

/-- The initial run of `poisson_generator`: draw the first gap and sleep. -/
def execGenStart (cfg : GCfg T) (g : Fin 4) (s : GState T) : GState T :=
  let (u, s1) := draw cfg s
  sched (s.now + u) (.genP g) s1

/-- A later iteration of `poisson_generator`: spawn a vehicle (its process
starts at the current instant), then draw the next gap and sleep. -/
def execGen (cfg : GCfg T) (g : Fin 4) (s : GState T) : GState T :=
  let n := s.genCount g + 1
  let v : Vid := (g, n)
  let s1 := { s with
    genCount := fun j => if j = g then n else s.genCount j,
    vehs := s.vehs ++ [(v, ⟨routeOf g, 0, 0⟩)] }
  let s2 := sched s.now (.vehGo v) s1
  let (u, s3) := draw cfg s2
  sched (s.now + u) (.genP g) s3

/-- Start of a route leg in `vehicle_process`: draw the travel delay
(`random.uniform(6, 14)`) and sleep it. -/
def execVehGo (cfg : GCfg T) (v : Vid) (s : GState T) : GState T :=
  let (u, s1) := draw cfg s
  sched (s.now + u) (.vehArrive v) s1

/-- Arrival at the leg's intersection: `v.join_queue(env.now)` followed by
`q.put(v)` (immediate, the store is unbounded); the vehicle then blocks on
its completion event, so no wakeup is scheduled. -/
def execVehArrive (v : Vid) (s : GState T) : GState T :=
  match s.vehs.lookup v with
  | none => s
  | some vs =>
    match vs.route.get? vs.legIdx with
    | none => s
    | some (i, d) =>
      let s1 := updInter i (fun st => st.pushQueue d (v, s.now)) s
      { s1 with ghJoins := s1.ghJoins ++ [⟨i, d, v, s.now⟩] }

/-- Resumption after `yield v.released`: move to the next leg; if legs remain
behave like a fresh leg start, otherwise append the completion record. -/
def execVehRel (cfg : GCfg T) (v : Vid) (s : GState T) : GState T :=
  match s.vehs.lookup v with
  | none => s
  | some vs =>
    let s1 := updVeh v (fun w => { w with legIdx := vs.legIdx + 1 }) s
    if vs.legIdx + 1 < vs.route.length then
      execVehGo cfg v s1
    else
      { s1 with done := s1.done ++ [⟨v, s.now, vs.total_wait⟩] }

/-- Dispatch one resumed process. -/
def exec (cfg : GCfg T) (s : GState T) : Proc → GState T
  | .sigP i => execSig cfg i s
  | .relP i => execRel cfg i s
  | .fairP i => execFair i s
  | .genStart g => execGenStart cfg g s
  | .genP g => execGen cfg g s
  | .monP => execMon s
  | .vehGo v => execVehGo cfg v s
  | .vehArrive v => execVehArrive v s
  | .vehRel v => execVehRel cfg v s

/-- Fire one wakeup: advance the clock to its time (never backward, see
`IsNext`), drop it from the pending list, execute its process. -/
def fire (cfg : GCfg T) (s : GState T) (e : Ev T Proc) : GState T :=
  exec cfg { s with now := e.time, events := s.events.erase e } e.proc

/-- The grid machine as a discrete-event system, one per configuration. -/
def gridDES (cfg : GCfg T) : DES T Proc (GState T) :=
  { evts := GState.events, fireEv := fire cfg }

variable (T)

/-- `Intersection.__init__`: NS phase, `phase_start = env.now = 0`, zero
fairness counters, empty stores. -/
def initInter : IState T :=
  { phase := .NS, phase_start := 0, red_wait_ns := 0, red_wait_ew := 0,
    q_ns := [], q_ew := [] }

variable {T}

/-- Process start order of `run()`: each of A,B,C,D starts its signal,
release and fairness loops (in `Intersection.__init__` order), then the four
generators, then the monitor — all at time 0. -/
def initProcs : List Proc :=
  [.sigP 0, .relP 0, .fairP 0, .sigP 1, .relP 1, .fairP 1,
   .sigP 2, .relP 2, .fairP 2, .sigP 3, .relP 3, .fairP 3,
   .genStart 0, .genStart 1, .genStart 2, .genStart 3, .monP]

variable (T)

/-- Initial machine state of `run(seed, controller_kind, ...)`. -/
def gridInit : GState T :=
  { now := 0
    inters := fun _ => initInter T
    vehs := []
    genCount := fun _ => 0
    events := initProcs.enum.map fun pk => ⟨0, pk.1, pk.2⟩
    nextSeq := initProcs.length
    rngIdx := 0
    log_events := []
    snapshots := []
    done := []
    ghJoins := []
    ghRels := [] }

variable {T}

/-- The three `controller_kind` strings accepted by `build_grid_2x2`
(anything other than `"fixed"`/`"dt"` selects the actuated controller). -/
inductive Kind where
  | fixed : Kind
  | dt : Kind
  | actuated : Kind
  deriving DecidableEq, Repr

variable (T)

/-- The controller object `build_grid_2x2` builds for each kind, shared by
reference across A,B,C,D. -/
def gridController : Kind → Controller T
  | .fixed => .fixed ⟨20, 20⟩
  | .dt => .dt (DTCfg.make 8 40)
  | .actuated => .actuated (gridActuated T)

variable {T}

/-- Release activity lies on the service grid `0, s, 2s, ...` of the
configured service time: every pending `release_process` wakeup, every ghost
release record, and every release entry of `log_events` carries a time that
is a natural multiple of `serv`. -/
def RelGrid (cfg : GCfg T) (s : GState T) : Prop :=
  (∀ (i : Fin 4) (t : T) (sq : ℕ),
      (⟨t, sq, Proc.relP i⟩ : Ev T Proc) ∈ s.events → ∃ k : ℕ, t = (k : T) * cfg.serv) ∧
  (∀ r ∈ s.ghRels, ∃ k : ℕ, r.tr = (k : T) * cfg.serv) ∧
  (∀ (t : T) (i : Fin 4) (v : Vid) (ph : Phase),
      LogRec.rel t i v ph ∈ s.log_events → ∃ k : ℕ, t = (k : T) * cfg.serv)

/-- Kernel time-coherence: the clock never exceeds any pending wakeup time
(no operation moves the clock backward, spec section 4.1). -/
def TimeOk (s : GState T) : Prop := ∀ e ∈ s.events, s.now ≤ e.time

/-- The join history of one direction of one intersection: `(vid, join time)`
for every vehicle that entered that store, in arrival order. -/
def joinsOf (i : Fin 4) (d : Phase) (s : GState T) : List (Vid × T) :=
  (s.ghJoins.filter fun r => decide (r.inter = i ∧ r.dir = d)).map fun r => (r.vid, r.tj)

/-- The release history of one direction of one intersection, in order. -/
def relsOf (i : Fin 4) (d : Phase) (s : GState T) : List (RelRec T) :=
  s.ghRels.filter fun r => decide (r.inter = i ∧ r.dir = d)

/-- FIFO bookkeeping of every store: the join history splits into the release
history (whose released vehicles left in join order, at non-decreasing
times bounded by the clock) followed by the current queue content; join
times are non-decreasing and bounded by the clock. -/
def FifoInv (s : GState T) : Prop :=
  ∀ (i : Fin 4) (d : Phase),
    ((relsOf i d s).map fun r => (r.vid, r.tj)) ++ (s.inters i).queueOf d
        = joinsOf i d s ∧
      List.Pairwise (fun a b : RelRec T => a.tr ≤ b.tr) (relsOf i d s) ∧
      (∀ r ∈ relsOf i d s, r.tr ≤ s.now) ∧
      List.Pairwise (fun a b : Vid × T => a.2 ≤ b.2) (joinsOf i d s) ∧
      (∀ j ∈ joinsOf i d s, j.2 ≤ s.now)

end Defs

/-- Configuration of the concrete run used for the C5 counterexample: the
fixed 20/20 controller, service time 2, and a stream that keeps every arrival
far beyond the window of interest (all durations integral, so `T = ℤ` is
exact). -/
def c5Cfg : GCfg ℤ :=
  { serv := 2, ctrls := fun _ => .fixed ⟨20, 20⟩, predict := fun _ => 0,
    stream := fun _ => 10000 }

/-- The machine state reached after 229 kernel steps under `c5Cfg`: the step
that has just run is intersection A's signal step at t = 20, which switched
the phase to EW; A's fairness clock has not ticked yet at t = 20. -/
def c5Final : GState ℤ :=
  ((gridDES c5Cfg).runSteps 100 229 (gridInit ℤ)).getD (gridInit ℤ)

/-- A throwaway concrete EW-phase intersection state used by witnesses. -/
def sampleStateEW : IState ℤ :=
  { phase := .EW, phase_start := 0, red_wait_ns := 3, red_wait_ew := 5,
    q_ns := [], q_ew := [] }

/-! ### The single-intersection simulation (`sim_one_intersection.py`)

Embedding of its `Intersection` + `FixedTimeController` under the scenario of
claim C8: `FixedTime(green_ns=20, green_ew=20)`, `service_time=2`, exactly one
NS vehicle and one EW vehicle, each joining its queue at t = 5 and no other
vehicles.  Every duration is integral, so time is `ℤ`.  Queue entries carry
the vehicle dict's `(approach, arrive_t)`; `depart_t` of the two vehicles is
recorded in the state. -/

/-- Processes of the scenario: the prologue and loop of `signal_process`,
`release_process`, and the two scripted queue joins. -/
inductive BProc where
  | sigInit : BProc
  | sigLoop : BProc
  | relB : BProc
  | arrNS : BProc
  | arrEW : BProc
  deriving DecidableEq, Repr

/-- Scenario state of the single intersection. -/
structure BState where
  now : ℤ
  phase : Phase
  phase_ends_at : ℤ
  q_ns : List (Phase × ℤ)
  q_ew : List (Phase × ℤ)
  nsDepart : Option ℤ
  ewDepart : Option ℤ
  switchLog : List (ℤ × Phase)
  events : List (Ev ℤ BProc)
  nextSeq : ℕ
  deriving DecidableEq, Repr

/-- Schedule a wakeup (single-intersection machine). -/
def schedB (t : ℤ) (p : BProc) (s : BState) : BState :=
  { s with events := s.events ++ [⟨t, s.nextSeq, p⟩], nextSeq := s.nextSeq + 1 }

/-- `FixedTimeController.next_phase` with the scenario's greens 20/20:
NS maps to (EW, green_ew) and anything else to (NS, green_ns). -/
def nextPhaseB : Phase → Phase × ℤ
  | .NS => (.EW, 20)
  | .EW => (.NS, 20)

/-- The prologue of `signal_process` (lines 33-34): NS phase,
`phase_ends_at = now + green_ns`, then the loop's first sleep
`max(0, phase_ends_at - now)`. -/
def execSigInit (s : BState) : BState :=
  let s1 := { s with phase := .NS, phase_ends_at := s.now + 20 }
  schedB (s1.now + max 0 (s1.phase_ends_at - s1.now)) .sigLoop s1

/-- One wake of the `signal_process` loop (lines 36-39): flip the phase per
`next_phase`, set the new `phase_ends_at`, sleep until it. -/
def execSigLoop (s : BState) : BState :=
  let pd := nextPhaseB s.phase
  let s1 := { s with
    phase := pd.1
    phase_ends_at := s.now + pd.2
    switchLog := s.switchLog ++ [(s.now, pd.1)] }
  schedB (s1.now + max 0 (s1.phase_ends_at - s1.now)) .sigLoop s1

/-- One iteration of `release_process` (lines 41-49): pop the green store's
head if any, set the vehicle's `depart_t` (its completion event resolves the
external `wait_for_done` tracker), then sleep `service_time = 2`. -/
def execRelB (s : BState) : BState :=
  let s1 :=
    match (if s.phase = .NS then s.q_ns else s.q_ew) with
    | [] => s
    | (tag, _arr) :: rest =>
      let s2 := if s.phase = .NS then { s with q_ns := rest } else { s with q_ew := rest }
      if tag = .NS then { s2 with nsDepart := some s.now }
      else { s2 with ewDepart := some s.now }
  schedB (s1.now + 2) .relB s1

/-- The scripted NS arrival: an immediate `q_ns.put` with `arrive_t = now`. -/
def execArrNS (s : BState) : BState :=
  { s with q_ns := s.q_ns ++ [(.NS, s.now)] }

/-- The scripted EW arrival: an immediate `q_ew.put` with `arrive_t = now`. -/
def execArrEW (s : BState) : BState :=
  { s with q_ew := s.q_ew ++ [(.EW, s.now)] }

/-- Dispatch one resumed process (single-intersection machine). -/
def execB (s : BState) : BProc → BState
  | .sigInit => execSigInit s
  | .sigLoop => execSigLoop s
  | .relB => execRelB s
  | .arrNS => execArrNS s
  | .arrEW => execArrEW s

/-- Fire one wakeup (single-intersection machine). -/
def fireB (s : BState) (e : Ev ℤ BProc) : BState :=
  execB { s with now := e.time, events := s.events.erase e } e.proc

/-- The single-intersection machine as a discrete-event system. -/
def oneDES : DES ℤ BProc BState :=
  { evts := BState.events, fireEv := fireB }

/-- Initial state of the C8 scenario: `Intersection.__init__` sets NS phase
and `phase_ends_at = 0` and starts the signal and release loops (in that
order) at time 0; the two vehicles' queue joins are scheduled for t = 5. -/
def bInit : BState :=
  { now := 0, phase := .NS, phase_ends_at := 0,
    q_ns := [], q_ew := [], nsDepart := none, ewDepart := none,
    switchLog := [],
    events := [⟨0, 0, .sigInit⟩, ⟨0, 1, .relB⟩, ⟨5, 2, .arrNS⟩, ⟨5, 3, .arrEW⟩],
    nextSeq := 4 }

/-- The final state of the C8 scenario run to horizon 25 (17 kernel steps). -/
def bFinal : BState :=
  (oneDES.runSteps 25 17 bInit).getD bInit

/-- Configuration of the concrete FIFO witness run: fixed 20/20 controllers,
service time 2, and a stream making generator 2 (route A→C, NS approach)
spawn exactly two vehicles that join A's NS store at t = 2 and t = 3 and are
released at t = 4 and t = 6. -/
def c2Cfg : GCfg ℤ :=
  { serv := 2
    ctrls := fun _ => .fixed ⟨20, 20⟩
    predict := fun _ => 0
    stream := fun k => if k = 0 ∨ k = 1 ∨ k = 3 ∨ k = 6 then 10000 else 1 }

/-- The final state of the FIFO witness run to horizon 7 (93 kernel steps). -/
def c2Final : GState ℤ :=
  ((gridDES c2Cfg).runSteps 7 93 (gridInit ℤ)).getD (gridInit ℤ)

/-- C1: `ActuatedController.decide` agrees with the spec's 5-rule priority
list (max-green guard, min-green guard, fairness override on the red
direction, demand-pressure rule, default HOLD), with
`time_in_phase = now - phase_start`. -/
theorem actuated_decide_follows_rule_order {T : Type} [LinearOrderedCommRing T]
    (c : ActuatedCfg T) (st : IState T) (now : T) (_h : st.phase_start ≤ now) :
    c.decide st now = actuatedSpecRules c st now := by
  cases hp : st.phase <;>
    simp only [ActuatedCfg.decide, actuatedSpecRules, IState.queues,
      IState.redWaitOfRed, IState.redQueueLen, IState.greenQueueLen, hp] <;>
    split_ifs <;> simp_all

/-- Witness for `actuated_decide_follows_rule_order` at a concrete state. -/
theorem actuated_decide_follows_rule_order_witness :
    (sampleState ℤ).phase_start ≤ (3 : ℤ) ∧
      (gridActuated ℤ).decide (sampleState ℤ) 3 =
        actuatedSpecRules (gridActuated ℤ) (sampleState ℤ) 3 :=
  ⟨by decide, actuated_decide_follows_rule_order (gridActuated ℤ) (sampleState ℤ) 3
    (by decide)⟩

/-- C4: for the configured grid controller (`min_green=8, max_green=40`),
whenever `time_in_phase ≥ max_green` the decision is SWITCH (never HOLD),
and whenever `time_in_phase < min_green` it is HOLD (never SWITCH). -/
theorem actuated_decide_bounds {T : Type} [LinearOrderedCommRing T]
    (st : IState T) (now : T) :
    ((gridActuated T).max_green ≤ now - st.phase_start →
      ((gridActuated T).decide st now).1 = Action.SWITCH) ∧
    (now - st.phase_start < (gridActuated T).min_green →
      ((gridActuated T).decide st now).1 = Action.HOLD) := by
  have hmax : (gridActuated T).max_green = 40 := rfl
  have hmin : (gridActuated T).min_green = 8 := rfl
  rw [hmax, hmin]
  constructor <;> intro h <;>
    cases hp : st.phase <;>
    simp only [ActuatedCfg.decide, IState.queues, gridActuated, ActuatedCfg.make, hp] <;>
    split_ifs <;> simp_all <;> linarith

/-- Witness for `actuated_decide_bounds`: at `time_in_phase = 40` the decision
is SWITCH, at `time_in_phase = 5` it is HOLD. -/
theorem actuated_decide_bounds_witness :
    ((gridActuated ℤ).decide (sampleState ℤ) 40).1 = Action.SWITCH ∧
      ((gridActuated ℤ).decide (sampleState ℤ) 5).1 = Action.HOLD :=
  ⟨(actuated_decide_bounds (sampleState ℤ) 40).1 (by decide),
   (actuated_decide_bounds (sampleState ℤ) 5).2 (by decide)⟩

/-- C6 (code evidence): constructing an Actuated or Learned controller with
`min_green > max_green` succeeds: the dataclass constructors store the fields
unconditionally, and `decide` then executes normally, so a simulation does run
with such a configuration (no fatal error anywhere). -/
theorem misconfigured_controller_constructs_and_runs :
    (ActuatedCfg.make (T := ℤ) 50 40 4 60).min_green = 50 ∧
    (ActuatedCfg.make (T := ℤ) 50 40 4 60).max_green = 40 ∧
    (ActuatedCfg.make (T := ℤ) 50 40 4 60).min_green >
      (ActuatedCfg.make (T := ℤ) 50 40 4 60).max_green ∧
    (ActuatedCfg.make (T := ℤ) 50 40 4 60).decide (sampleState ℤ) 0 = (Action.HOLD, 1) ∧
    (DTCfg.make (T := ℤ) 50 40).min_green > (DTCfg.make (T := ℤ) 50 40).max_green ∧
    DTCfg.decide (fun _ => 0) (DTCfg.make (T := ℤ) 50 40) (sampleState ℤ) 0 =
      (Action.HOLD, 1) := by
  decide

/-- C7: the Learned controller's `decide` follows the spec's order:
min-green guard first, then max-green guard (the reverse of Actuated's
ordering), then the external classifier on the feature vector
`[queue_ns, queue_ew, phase_is_ns, time_in_phase, red_wait_ns, red_wait_ew]`,
switching exactly when the predicted label is 1. -/
theorem dt_decide_follows_rule_order {T : Type} [LinearOrderedCommRing T]
    (predict : List T → ℤ) (c : DTCfg T) (st : IState T) (now : T) :
    DTCfg.decide predict c st now = dtSpecRules predict c st now := rfl

/-! ### Kernel lemmas: the popped wakeup is the minimal one, and it is unique -/

section KernelLemmas

variable {T P S : Type} [LinearOrder T]

theorem Ev.le_rfl (a : Ev T P) : a.le a := Or.inr ⟨rfl, Nat.le_refl _⟩

theorem Ev.le_trans {a b c : Ev T P} (h1 : a.le b) (h2 : b.le c) : a.le c := by
  rcases h1 with h1 | ⟨h1, h1s⟩ <;> rcases h2 with h2 | ⟨h2, h2s⟩
  · exact Or.inl (lt_trans h1 h2)
  · exact Or.inl (h2 ▸ h1)
  · exact Or.inl (h1 ▸ h2)
  · exact Or.inr ⟨h1.trans h2, Nat.le_trans h1s h2s⟩

theorem Ev.le_of_not_le {a b : Ev T P} (h : ¬ a.le b) : b.le a := by
  unfold Ev.le at h ⊢
  push_neg at h
  obtain ⟨h1, h2⟩ := h
  rcases lt_trichotomy a.time b.time with ht | ht | ht
  · exact absurd ht (not_lt.mpr h1)
  · exact Or.inr ⟨ht.symm, (h2 ht).le⟩
  · exact Or.inl ht

theorem nextEv_eq_none {l : List (Ev T P)} (h : nextEv l = none) : l = [] := by
  cases l with
  | nil => rfl
  | cons x r =>
    simp only [nextEv] at h
    cases hr : nextEv r with
    | none => simp only [hr] at h; exact Option.noConfusion h
    | some m => simp only [hr] at h; split_ifs at h

theorem nextEv_sound : ∀ {l : List (Ev T P)} {e : Ev T P},
    nextEv l = some e → IsNext l e := by
  intro l
  induction l with
  | nil => intro e h; cases h
  | cons x r ih =>
    intro e h
    simp only [nextEv] at h
    cases hr : nextEv r with
    | none =>
      simp only [hr] at h
      cases h
      have hre : r = [] := nextEv_eq_none hr
      subst hre
      exact ⟨List.mem_singleton_self x, by
        intro y hy
        rw [List.mem_singleton] at hy
        exact hy ▸ Ev.le_rfl x⟩
    | some m =>
      simp only [hr] at h
      have hm := ih hr
      split_ifs at h with hle
      · cases h
        refine ⟨List.mem_cons_of_mem x hm.1, ?_⟩
        intro y hy
        rcases List.mem_cons.mp hy with hy | hy
        · exact hy ▸ hle
        · exact hm.2 y hy
      · cases h
        refine ⟨List.mem_cons_self x r, ?_⟩
        intro y hy
        rcases List.mem_cons.mp hy with hy | hy
        · exact hy ▸ Ev.le_rfl x
        · exact Ev.le_trans (Ev.le_of_not_le hle) (hm.2 y hy)

theorem isNext_unique {l : List (Ev T P)} (hnd : (l.map Ev.seq).Nodup)
    {e1 e2 : Ev T P} (h1 : IsNext l e1) (h2 : IsNext l e2) : e1 = e2 := by
  have h12 := h1.2 e2 h2.1
  have h21 := h2.2 e1 h1.1
  have ht : e1.time = e2.time := by
    rcases h12 with h | ⟨h, _⟩
    · rcases h21 with h' | ⟨h', _⟩
      · exact absurd h (asymm h')
      · exact h'.symm
    · exact h
  have hseq : e1.seq = e2.seq := by
    rcases h12 with h | ⟨_, hs⟩
    · rw [ht] at h; exact absurd h (lt_irrefl _)
    · rcases h21 with h' | ⟨_, hs'⟩
      · rw [ht] at h'; exact absurd h' (lt_irrefl _)
      · exact Nat.le_antisymm hs hs'
  exact List.inj_on_of_nodup_map hnd h1.1 h2.1 hseq

theorem DES.stepF_sound (M : DES T P S) {h : T} {s s' : S}
    (hs : M.stepF h s = some s') : M.StepH h s s' := by
  unfold DES.stepF at hs
  cases he : nextEv (M.evts s) with
  | none => simp only [he] at hs; exact Option.noConfusion hs
  | some e =>
    simp only [he] at hs
    split_ifs at hs with ht
    exact ⟨e, nextEv_sound he, ht, (Option.some.inj hs).symm⟩

theorem DES.runSteps_sound (M : DES T P S) {h : T} :
    ∀ {n : ℕ} {s s' : S}, M.runSteps h n s = some s' → M.TraceH h s n s' := by
  intro n
  induction n with
  | zero =>
    intro s s' hs
    cases hs
    exact .refl s
  | succ n ih =>
    intro s s' hs
    unfold DES.runSteps at hs
    cases hf : M.stepF h s with
    | none => simp only [hf] at hs; exact Option.noConfusion hs
    | some s1 =>
      simp only [hf] at hs
      exact .step (M.stepF_sound hf) (ih hs)

theorem DES.step_det (M : DES T P S) {h : T} {s s1 s2 : S}
    (hnd : ((M.evts s).map Ev.seq).Nodup)
    (H1 : M.StepH h s s1) (H2 : M.StepH h s s2) : s1 = s2 := by
  obtain ⟨e1, hn1, _, rfl⟩ := H1
  obtain ⟨e2, hn2, _, rfl⟩ := H2
  rw [isNext_unique hnd hn1 hn2]

theorem DES.done_no_step (M : DES T P S) {h : T} {s s' : S}
    (hd : M.DoneH h s) (hs : M.StepH h s s') : False := by
  obtain ⟨e, hn, ht, _⟩ := hs
  exact absurd ht (not_lt.mpr (hd e hn.1))

/-- Two complete runs (same start, same horizon) coincide, given any
invariant that implies distinct pending sequence numbers and is preserved by
steps. -/
theorem DES.trace_det (M : DES T P S) {h : T} (Inv : S → Prop)
    (pres : ∀ {s s' : S}, M.StepH h s s' → Inv s → Inv s')
    (inv_nodup : ∀ {s : S}, Inv s → ((M.evts s).map Ev.seq).Nodup) :
    ∀ {n1 n2 : ℕ} {s s1 s2 : S}, Inv s →
      M.TraceH h s n1 s1 → M.DoneH h s1 →
      M.TraceH h s n2 s2 → M.DoneH h s2 → s1 = s2 := by
  intro n1
  induction n1 with
  | zero =>
    intro n2 s s1 s2 hinv t1 d1 t2 d2
    cases t1
    cases t2 with
    | refl => rfl
    | step hs _ => exact absurd hs fun hs => M.done_no_step d1 hs
  | succ n ih =>
    intro n2 s s1 s2 hinv t1 d1 t2 d2
    cases t1 with
    | step hs1 t1' =>
      cases t2 with
      | refl => exact absurd hs1 fun hs => M.done_no_step d2 hs
      | step hs2 t2' =>
        have heq := M.step_det (inv_nodup hinv) hs1 hs2
        subst heq
        exact ih (pres hs1 hinv) t1' d1 t2' d2

end KernelLemmas

/-! ### Freshness of sequence numbers along grid runs -/

section GridSeq

theorem evOk_append_fresh {T P : Type} {evs : List (Ev T P)} {n : ℕ} (t : T) (p : P)
    (hok : EvOk evs n) : EvOk (evs ++ [⟨t, n, p⟩]) (n + 1) := by
  obtain ⟨hnd, hb⟩ := hok
  constructor
  · rw [List.map_append, List.nodup_append]
    refine ⟨hnd, List.nodup_singleton _, ?_⟩
    intro a ha hmem
    simp only [List.map_cons, List.map_nil, List.mem_singleton] at hmem
    subst hmem
    obtain ⟨e, he, hseq⟩ := List.mem_map.mp ha
    exact absurd (hseq ▸ hb e he) (lt_irrefl _)
  · intro e he
    rcases List.mem_append.mp he with he | he
    · exact Nat.lt_succ_of_lt (hb e he)
    · simp only [List.mem_singleton] at he
      subst he
      exact Nat.lt_succ_self n

theorem evOk_erase {T P : Type} [DecidableEq T] [DecidableEq P]
    {evs : List (Ev T P)} {n : ℕ} (e : Ev T P)
    (hok : EvOk evs n) : EvOk (evs.erase e) n := by
  obtain ⟨hnd, hb⟩ := hok
  exact ⟨hnd.sublist ((evs.erase_sublist e).map Ev.seq),
    fun x hx => hb x (List.mem_of_mem_erase hx)⟩

theorem evOk_sched {T : Type} {s : GState T} (t : T) (p : Proc)
    (hok : EvOk s.events s.nextSeq) :
    EvOk (sched t p s).events (sched t p s).nextSeq :=
  evOk_append_fresh t p hok

variable {T : Type} [LinearOrderedCommRing T]

theorem evOk_exec (cfg : GCfg T) {s : GState T} (p : Proc)
    (hok : EvOk s.events s.nextSeq) :
    EvOk (exec cfg s p).events (exec cfg s p).nextSeq := by
  cases p with
  | sigP i =>
    simp only [exec, execSig]
    split_ifs <;> exact evOk_sched _ _ hok
  | relP i =>
    simp only [exec, execRel]
    split
    · exact evOk_sched _ _ hok
    · exact evOk_sched _ _ (evOk_sched _ _ hok)
  | fairP i => exact evOk_sched _ _ hok
  | genStart g => exact evOk_sched _ _ hok
  | genP g => exact evOk_sched _ _ (evOk_sched _ _ hok)
  | monP => exact evOk_sched _ _ hok
  | vehGo v => exact evOk_sched _ _ hok
  | vehArrive v =>
    simp only [exec, execVehArrive]
    split
    · exact hok
    · split
      · exact hok
      · exact hok
  | vehRel v =>
    simp only [exec, execVehRel]
    split
    · exact hok
    · split_ifs
      · exact evOk_sched _ _ hok
      · exact hok

theorem evOk_fire (cfg : GCfg T) {s : GState T} (e : Ev T Proc)
    (hok : EvOk s.events s.nextSeq) :
    EvOk (fire cfg s e).events (fire cfg s e).nextSeq :=
  evOk_exec cfg e.proc (evOk_erase e hok)

theorem evOk_step {cfg : GCfg T} {h : T} {s s' : GState T}
    (hs : (gridDES cfg).StepH h s s')
    (hok : EvOk s.events s.nextSeq) : EvOk s'.events s'.nextSeq := by
  obtain ⟨e, _, _, rfl⟩ := hs
  exact evOk_fire cfg e hok

theorem gridInit_evOk :
    EvOk (gridInit T).events (gridInit T).nextSeq := by
  have h1 : (gridInit T).events.map Ev.seq
      = initProcs.enum.map Prod.fst := by
    show ((initProcs.enum.map fun pk => (⟨0, pk.1, pk.2⟩ : Ev T Proc)).map Ev.seq) = _
    rw [List.map_map]
    rfl
  have h2 : initProcs.enum.map Prod.fst = List.range 17 := by decide
  constructor
  · rw [h1, h2]
    exact List.nodup_range _
  · intro e he
    have hmem : e.seq ∈ (gridInit T).events.map Ev.seq :=
      List.mem_map_of_mem Ev.seq he
    rw [h1, h2] at hmem
    have hlen : (gridInit T).nextSeq = 17 := rfl
    rw [hlen]
    exact List.mem_range.mp hmem

end GridSeq

/-! ### Determinism, the fairness-counter invariant, and the C8 scenario -/

/-- C3: determinism of `run()` — two complete runs of the grid simulation
with identical seed and configuration (hence the same machine: the same
controllers, classifier, service time and seed-determined random stream) and
the same horizon produce identical snapshot sequences, completion-record
sequences and signal/release logs, element for element, equal-time records
included. -/
theorem grid_run_deterministic {T : Type} [LinearOrderedCommRing T]
    (cfg : GCfg T) (h : T) {n1 n2 : ℕ} {s1 s2 : GState T}
    (t1 : (gridDES cfg).TraceH h (gridInit T) n1 s1)
    (d1 : (gridDES cfg).DoneH h s1)
    (t2 : (gridDES cfg).TraceH h (gridInit T) n2 s2)
    (d2 : (gridDES cfg).DoneH h s2) :
    s1.snapshots = s2.snapshots ∧ s1.done = s2.done ∧
      s1.log_events = s2.log_events := by
  have hdet := (gridDES cfg).trace_det (fun s => EvOk s.events s.nextSeq)
    (fun hs hok => evOk_step hs hok) (fun hok => hok.1)
    gridInit_evOk t1 d1 t2 d2
  rw [hdet]
  exact ⟨rfl, rfl, rfl⟩

/-- Witness for `grid_run_deterministic`: with horizon 0 the initial state is
already complete, and the two (empty) runs agree. -/
theorem grid_run_deterministic_witness :
    (gridDES c5Cfg).DoneH 0 (gridInit ℤ) ∧
      ((gridInit ℤ).snapshots = (gridInit ℤ).snapshots ∧
        (gridInit ℤ).done = (gridInit ℤ).done ∧
        (gridInit ℤ).log_events = (gridInit ℤ).log_events) :=
  ⟨by decide,
   grid_run_deterministic c5Cfg 0 (.refl _) (by decide) (.refl _) (by decide)⟩

set_option maxRecDepth 100000 in
/-- C5 (counterexample): the invariant "the green direction's red-wait is 0
in every reachable state" fails.  After 229 kernel steps of a concrete grid
run (fixed 20/20 controller, no arrivals in the window), intersection A's
signal step at t = 20 has just switched the phase to EW while
`red_wait_ew = 20` from the preceding red interval: the fairness clock only
resets it at its next tick. -/
theorem green_red_wait_zero_counterexample :
    (gridDES c5Cfg).TraceH 100 (gridInit ℤ) 229 c5Final ∧
      (c5Final.inters 0).phase = Phase.EW ∧
      (c5Final.inters 0).red_wait_ew ≠ 0 := by
  refine ⟨?_, by decide, by decide⟩
  apply (gridDES c5Cfg).runSteps_sound
  have hsome : ((gridDES c5Cfg).runSteps 100 229 (gridInit ℤ)).isSome = true := by decide
  unfold c5Final
  cases hx : (gridDES c5Cfg).runSteps (100 : ℤ) 229 (gridInit ℤ) with
  | none => rw [hx] at hsome; cases hsome
  | some v => rfl

/-- C5 (amended): the invariant holds at every state produced by a
fairness-clock tick: immediately after the tick body runs, the
currently-green direction's red-wait counter is 0 (between a phase switch and
the next tick the new green direction's counter may still be positive). -/
theorem fair_tick_resets_green {T : Type} [LinearOrderedCommRing T]
    (st : IState T) :
    ((fairTick st).phase = Phase.NS → (fairTick st).red_wait_ns = 0) ∧
    ((fairTick st).phase = Phase.EW → (fairTick st).red_wait_ew = 0) := by
  cases hp : st.phase <;> simp [fairTick, hp]

/-- Witness for `fair_tick_resets_green` at an NS-green and an EW-green
state. -/
theorem fair_tick_resets_green_witness :
    ((fairTick (sampleState ℤ)).phase = Phase.NS ∧
      (fairTick (sampleState ℤ)).red_wait_ns = 0) ∧
    ((fairTick sampleStateEW).phase = Phase.EW ∧
      (fairTick sampleStateEW).red_wait_ew = 0) :=
  ⟨⟨by decide, (fair_tick_resets_green (sampleState ℤ)).1 (by decide)⟩,
   ⟨by decide, (fair_tick_resets_green sampleStateEW).2 (by decide)⟩⟩

/-- C8 (counterexample): in the one-intersection scenario the complete run to
horizon 25 releases the EW vehicle at exactly t = 20 — the very instant of
the phase switch (the signal wakeup precedes the release wakeup at t = 20 in
the heap order) — not at t ≈ 22. -/
theorem one_intersection_scenario_counterexample :
    oneDES.TraceH 25 bInit 17 bFinal ∧ oneDES.DoneH 25 bFinal ∧
      bFinal.ewDepart = some 20 ∧ bFinal.ewDepart ≠ some 22 := by
  refine ⟨?_, by decide, by decide, by decide⟩
  apply oneDES.runSteps_sound
  show oneDES.runSteps (25 : ℤ) 17 bInit = some bFinal
  decide

/-- C8 (amended): the complete scenario run releases the NS vehicle at t = 6
(the first service tick after its t = 5 join), switches the phase to EW at
t = 20, and releases the EW vehicle at exactly t = 20, in the same instant
right after the switch. -/
theorem one_intersection_scenario_amended :
    oneDES.TraceH 25 bInit 17 bFinal ∧ oneDES.DoneH 25 bFinal ∧
      bFinal.nsDepart = some 6 ∧ bFinal.switchLog = [(20, Phase.EW)] ∧
      bFinal.ewDepart = some 20 := by
  refine ⟨?_, by decide, by decide, by decide, by decide⟩
  apply oneDES.runSteps_sound
  show oneDES.runSteps (25 : ℤ) 17 bInit = some bFinal
  decide

/-- C9: sharing one controller object across A, B, C, D (as `build_grid_2x2`
does) is observationally equivalent to giving each intersection its own
identically-configured instance: controllers are immutable configuration data
and `decide` is a pure function of the intersection's state, so the two
machines coincide and every run (hence all phase trajectories, logs and
completion records) is identical. -/
theorem shared_controller_equivalent {T : Type} [LinearOrderedCommRing T]
    (serv : T) (predict : List T → ℤ) (stream : ℕ → T)
    (ctrls : Fin 4 → Controller T) (c : Controller T)
    (hsame : ∀ i, ctrls i = c) (h : T) (n : ℕ) :
    (gridDES { serv := serv, ctrls := ctrls, predict := predict, stream := stream }).runSteps
        h n (gridInit T) =
      (gridDES { serv := serv, ctrls := fun _ => c, predict := predict, stream := stream }).runSteps
        h n (gridInit T) := by
  have hfun : ctrls = fun _ => c := funext hsame
  rw [hfun]

/-- Witness for `shared_controller_equivalent` with the fixed controller. -/
theorem shared_controller_equivalent_witness :
    (∀ i : Fin 4, (fun _ : Fin 4 => gridController ℤ .fixed) i = gridController ℤ .fixed) ∧
      (gridDES
          { serv := 2
            ctrls := fun _ => gridController ℤ .fixed
            predict := fun _ => 0
            stream := fun _ => 1 }).runSteps 10 3 (gridInit ℤ) =
        (gridDES
          { serv := 2
            ctrls := fun _ => gridController ℤ .fixed
            predict := fun _ => 0
            stream := fun _ => 1 }).runSteps 10 3 (gridInit ℤ) :=
  ⟨fun _ => rfl,
   shared_controller_equivalent 2 (fun _ => 0) (fun _ => 1)
     (fun _ => gridController ℤ .fixed) (gridController ℤ .fixed) (fun _ => rfl) 10 3⟩

/-! ### The release loop stays on the service grid (C10) -/

section RelGridLemmas

variable {T : Type} [LinearOrderedCommRing T]

omit [LinearOrderedCommRing T] in
theorem mem_sched {s : GState T} {t : T} {p : Proc} {e : Ev T Proc}
    (he : e ∈ (sched t p s).events) : e ∈ s.events ∨ e = ⟨t, s.nextSeq, p⟩ := by
  rcases List.mem_append.mp he with h | h
  · exact Or.inl h
  · exact Or.inr (List.mem_singleton.mp h)

theorem relGrid_sched_other {cfg : GCfg T} {s : GState T} {t0 : T} {p : Proc}
    (hnotrel : ∀ i : Fin 4, p ≠ Proc.relP i)
    (h1 : ∀ (i : Fin 4) (t : T) (sq : ℕ),
      (⟨t, sq, Proc.relP i⟩ : Ev T Proc) ∈ s.events → ∃ k : ℕ, t = (k : T) * cfg.serv) :
    ∀ (i : Fin 4) (t : T) (sq : ℕ),
      (⟨t, sq, Proc.relP i⟩ : Ev T Proc) ∈ (sched t0 p s).events →
        ∃ k : ℕ, t = (k : T) * cfg.serv := by
  intro i t sq hmem
  rcases mem_sched hmem with h | h
  · exact h1 i t sq h
  · injection h with _ _ hproc
    exact absurd hproc.symm (hnotrel i)

theorem relGrid_sched_rel {cfg : GCfg T} {s : GState T} {t0 : T} {j : Fin 4}
    (ht0 : ∃ k : ℕ, t0 = (k : T) * cfg.serv)
    (h1 : ∀ (i : Fin 4) (t : T) (sq : ℕ),
      (⟨t, sq, Proc.relP i⟩ : Ev T Proc) ∈ s.events → ∃ k : ℕ, t = (k : T) * cfg.serv) :
    ∀ (i : Fin 4) (t : T) (sq : ℕ),
      (⟨t, sq, Proc.relP i⟩ : Ev T Proc) ∈ (sched t0 (Proc.relP j) s).events →
        ∃ k : ℕ, t = (k : T) * cfg.serv := by
  intro i t sq hmem
  rcases mem_sched hmem with h | h
  · exact h1 i t sq h
  · injection h with ht _ _
    exact ht ▸ ht0

theorem relGrid_exec {cfg : GCfg T} {s : GState T} (p : Proc)
    (hp : ∀ i : Fin 4, p = Proc.relP i → ∃ k : ℕ, s.now = (k : T) * cfg.serv)
    (hinv : RelGrid cfg s) : RelGrid cfg (exec cfg s p) := by
  obtain ⟨hev, hrel, hlog⟩ := hinv
  cases p with
  | relP i =>
    obtain ⟨k, hk⟩ := hp i rfl
    have hnext : ∃ k' : ℕ, s.now + cfg.serv = (k' : T) * cfg.serv :=
      ⟨k + 1, by push_cast; rw [hk]; ring⟩
    simp only [exec, execRel]
    split
    · exact ⟨relGrid_sched_rel hnext hev, hrel, hlog⟩
    · refine ⟨?_, ?_, ?_⟩
      · exact relGrid_sched_rel hnext
          (relGrid_sched_other (by intro j h; exact Proc.noConfusion h) hev)
      · intro r hr
        rcases List.mem_append.mp hr with h | h
        · exact hrel r h
        · rw [List.mem_singleton] at h
          subst h
          exact ⟨k, hk⟩
      · intro t j v ph hm
        rcases List.mem_append.mp hm with h | h
        · exact hlog t j v ph h
        · rw [List.mem_singleton] at h
          injection h with ht _ _ _
          exact ht ▸ ⟨k, hk⟩
  | sigP i =>
    simp only [exec, execSig]
    split_ifs <;>
      refine ⟨relGrid_sched_other (by intro j h; exact Proc.noConfusion h) hev, hrel, ?_⟩ <;>
      · intro t j v ph hm
        rcases List.mem_append.mp hm with h | h
        · exact hlog t j v ph h
        · rw [List.mem_singleton] at h
          exact LogRec.noConfusion h
  | fairP i =>
    exact ⟨relGrid_sched_other (by intro j h; exact Proc.noConfusion h) hev, hrel, hlog⟩
  | genStart g =>
    exact ⟨relGrid_sched_other (by intro j h; exact Proc.noConfusion h) hev, hrel, hlog⟩
  | genP g =>
    exact ⟨relGrid_sched_other (by intro j h; exact Proc.noConfusion h)
      (relGrid_sched_other (by intro j h; exact Proc.noConfusion h) hev), hrel, hlog⟩
  | monP =>
    exact ⟨relGrid_sched_other (by intro j h; exact Proc.noConfusion h) hev, hrel, hlog⟩
  | vehGo v =>
    exact ⟨relGrid_sched_other (by intro j h; exact Proc.noConfusion h) hev, hrel, hlog⟩
  | vehArrive v =>
    simp only [exec, execVehArrive]
    split
    · exact ⟨hev, hrel, hlog⟩
    · split
      · exact ⟨hev, hrel, hlog⟩
      · exact ⟨hev, hrel, hlog⟩
  | vehRel v =>
    simp only [exec, execVehRel]
    split
    · exact ⟨hev, hrel, hlog⟩
    · split_ifs
      · exact ⟨relGrid_sched_other (by intro j h; exact Proc.noConfusion h) hev, hrel, hlog⟩
      · exact ⟨hev, hrel, hlog⟩

theorem relGrid_step {cfg : GCfg T} {h : T} {s s' : GState T}
    (hs : (gridDES cfg).StepH h s s') (hinv : RelGrid cfg s) : RelGrid cfg s' := by
  obtain ⟨e, hn, _, rfl⟩ := hs
  obtain ⟨hev, hrel, hlog⟩ := hinv
  have herase : RelGrid cfg { s with now := e.time, events := s.events.erase e } :=
    ⟨fun i t sq hm => hev i t sq (List.mem_of_mem_erase hm), hrel, hlog⟩
  apply relGrid_exec e.proc _ herase
  intro i hpi
  exact hev i e.time e.seq (by rw [← hpi]; exact hn.1)

theorem relGrid_trace {cfg : GCfg T} {h : T} :
    ∀ {n : ℕ} {s s' : GState T}, RelGrid cfg s →
      (gridDES cfg).TraceH h s n s' → RelGrid cfg s' := by
  intro n
  induction n with
  | zero => intro s s' hinv tr; cases tr; exact hinv
  | succ n ih =>
    intro s s' hinv tr
    cases tr with
    | step hs tr' => exact ih (relGrid_step hs hinv) tr'

theorem relGrid_init (cfg : GCfg T) : RelGrid cfg (gridInit T) := by
  refine ⟨?_, ?_, ?_⟩
  · intro i t sq hm
    have ht : t = 0 := by
      obtain ⟨pk, _, hpk⟩ := List.mem_map.mp hm
      exact (congrArg Ev.time hpk).symm
    exact ⟨0, by rw [ht]; push_cast; ring⟩
  · intro r hr
    exact absurd hr (List.not_mem_nil r)
  · intro t i v ph hm
    exact absurd hm (List.not_mem_nil _)

end RelGridLemmas

/-- C10: in every reachable state of any grid run, all release activity of an
intersection created at time 0 happens on multiples of its service time: the
pending `release_process` wakeup times, the recorded release times in the
ghost log, and the release entries of `log_events` all equal `k * serv` for
some natural `k` (in particular a vehicle joining between ticks is not
released at its join instant but at the next tick). -/
theorem release_on_service_grid {T : Type} [LinearOrderedCommRing T]
    (cfg : GCfg T) (h : T) {n : ℕ} {s' : GState T}
    (tr : (gridDES cfg).TraceH h (gridInit T) n s') :
    RelGrid cfg s' :=
  relGrid_trace (relGrid_init cfg) tr

/-- Witness for `release_on_service_grid`: the empty trace from the initial
state (whose four pending release wakeups sit at `0 = 0 * serv`). -/
theorem release_on_service_grid_witness : RelGrid c5Cfg (gridInit ℤ) :=
  release_on_service_grid c5Cfg 0 (.refl _)

/-! ### FIFO release order (C2) -/

section FifoLemmas

variable {T : Type} [LinearOrderedCommRing T]

theorem Ev.le_time {P : Type} {a b : Ev T P} (h : a.le b) : a.time ≤ b.time := by
  rcases h with h | ⟨h, _⟩
  · exact h.le
  · exact h.le

theorem decide_delay_nonneg (c : Controller T) (predict : List T → ℤ)
    (st : IState T) (now : T) : 0 ≤ (c.decide predict st now).2 := by
  cases c <;>
    simp only [Controller.decide, FixedCfg.decide, ActuatedCfg.decide, DTCfg.decide] <;>
    split_ifs <;> norm_num

theorem timeOk_sched {s : GState T} {t : T} {p : Proc}
    (ht : s.now ≤ t) (h : TimeOk s) : TimeOk (sched t p s) := by
  intro e he
  show s.now ≤ e.time
  rcases mem_sched he with hm | hm
  · exact h e hm
  · subst hm
    exact ht

theorem timeOk_exec (cfg : GCfg T) (hserv : 0 ≤ cfg.serv)
    (hstream : ∀ k, 0 ≤ cfg.stream k) {s : GState T} (p : Proc)
    (h : TimeOk s) : TimeOk (exec cfg s p) := by
  cases p with
  | sigP i =>
    simp only [exec, execSig]
    split_ifs <;>
      exact timeOk_sched (le_add_of_nonneg_right (decide_delay_nonneg _ _ _ _)) h
  | relP i =>
    simp only [exec, execRel]
    split
    · exact timeOk_sched (le_add_of_nonneg_right hserv) h
    · exact timeOk_sched (le_add_of_nonneg_right hserv) (timeOk_sched le_rfl h)
  | fairP i => exact timeOk_sched (le_add_of_nonneg_right zero_le_one) h
  | genStart g => exact timeOk_sched (le_add_of_nonneg_right (hstream _)) h
  | genP g =>
    exact timeOk_sched (le_add_of_nonneg_right (hstream _)) (timeOk_sched le_rfl h)
  | monP => exact timeOk_sched (le_add_of_nonneg_right zero_le_one) h
  | vehGo v => exact timeOk_sched (le_add_of_nonneg_right (hstream _)) h
  | vehArrive v =>
    simp only [exec, execVehArrive]
    split
    · exact h
    · split
      · exact h
      · exact h
  | vehRel v =>
    simp only [exec, execVehRel]
    split
    · exact h
    · split_ifs
      · exact timeOk_sched (le_add_of_nonneg_right (hstream _)) h
      · exact h

theorem exec_now (cfg : GCfg T) (s : GState T) (p : Proc) :
    (exec cfg s p).now = s.now := by
  cases p with
  | sigP i =>
    simp only [exec, execSig]
    split_ifs <;> rfl
  | relP i =>
    simp only [exec, execRel]
    split
    · rfl
    · rfl
  | fairP i => rfl
  | genStart g => rfl
  | genP g => rfl
  | monP => rfl
  | vehGo v => rfl
  | vehArrive v =>
    simp only [exec, execVehArrive]
    split
    · rfl
    · split
      · rfl
      · rfl
  | vehRel v =>
    simp only [exec, execVehRel]
    split
    · rfl
    · split_ifs
      · rfl
      · rfl

theorem timeOk_step {cfg : GCfg T} (hserv : 0 ≤ cfg.serv)
    (hstream : ∀ k, 0 ≤ cfg.stream k) {h : T} {s s' : GState T}
    (hs : (gridDES cfg).StepH h s s') : TimeOk s' := by
  obtain ⟨e, hn, _, rfl⟩ := hs
  apply timeOk_exec cfg hserv hstream
  intro e' he'
  exact Ev.le_time (hn.2 e' (List.mem_of_mem_erase he'))

theorem step_now_mono {cfg : GCfg T} {h : T} {s s' : GState T}
    (hs : (gridDES cfg).StepH h s s') (hts : TimeOk s) : s.now ≤ s'.now := by
  obtain ⟨e, hn, _, rfl⟩ := hs
  show s.now ≤ (fire cfg s e).now
  have h1 : (fire cfg s e).now = e.time := exec_now cfg _ e.proc
  rw [h1]
  exact hts e hn.1

theorem timeOk_init : TimeOk (gridInit T) := by
  intro e he
  obtain ⟨pk, _, hpk⟩ := List.mem_map.mp he
  show (gridInit T).now ≤ e.time
  rw [← hpk]
  exact le_rfl

theorem pairwise_append_right {α : Type} {R : α → α → Prop} {l : List α} {a : α}
    (hp : List.Pairwise R l) (ha : ∀ x ∈ l, R x a) :
    List.Pairwise R (l ++ [a]) := by
  rw [List.pairwise_append]
  refine ⟨hp, List.pairwise_singleton _ _, ?_⟩
  intro x hx b hb
  rw [List.mem_singleton] at hb
  subst hb
  exact ha x hx

omit [LinearOrderedCommRing T] in
theorem updInter_inters (i0 : Fin 4) (f : IState T → IState T) (s : GState T)
    (i : Fin 4) :
    (updInter i0 f s).inters i = if i = i0 then f (s.inters i) else s.inters i := rfl

omit [LinearOrderedCommRing T] in
theorem queueOf_setQueue (st : IState T) (d' : Phase) (q : List (Vid × T))
    (d : Phase) :
    (st.setQueue d' q).queueOf d = if d = d' then q else st.queueOf d := by
  cases d <;> cases d' <;> simp [IState.setQueue, IState.queueOf]

omit [LinearOrderedCommRing T] in
theorem fairTick_queueOf (st : IState T) (d : Phase) :
    (fairTick st).queueOf d = st.queueOf d := by
  cases hp : st.phase <;> cases d <;> simp [fairTick, hp, IState.queueOf]

/-- FIFO bookkeeping is untouched by steps that change neither the ghost
logs, the queues, nor the clock. -/
theorem fifoInv_of_eq {s s' : GState T} (hf : FifoInv s)
    (hgh : s'.ghJoins = s.ghJoins) (hgr : s'.ghRels = s.ghRels)
    (hq : ∀ (i : Fin 4) (d : Phase),
      (s'.inters i).queueOf d = (s.inters i).queueOf d)
    (hnow : s'.now = s.now) : FifoInv s' := by
  intro i d
  obtain ⟨h1, h2, h3, h4, h5⟩ := hf i d
  have hrels : relsOf i d s' = relsOf i d s := by unfold relsOf; rw [hgr]
  have hjoins : joinsOf i d s' = joinsOf i d s := by unfold joinsOf; rw [hgh]
  rw [hrels, hjoins, hq i d, hnow]
  exact ⟨h1, h2, h3, h4, h5⟩

/-- FIFO bookkeeping across one dequeue by `release_process`: the head of the
green store moves to the end of the release history, stamped with the
current time. -/
theorem fifoInv_release {s s' : GState T} (hf : FifoInv s)
    (irel : Fin 4) (v : Vid) (tj : T)
    (rest : List (Vid × T))
    (heq : (s.inters irel).queueOf (s.inters irel).phase = (v, tj) :: rest)
    (hgh : s'.ghJoins = s.ghJoins)
    (hgr : s'.ghRels
      = s.ghRels ++ [⟨irel, (s.inters irel).phase, v, tj, s.now⟩])
    (hq : ∀ (i : Fin 4) (d : Phase), (s'.inters i).queueOf d
      = if i = irel ∧ d = (s.inters irel).phase then rest
        else (s.inters i).queueOf d)
    (hnow : s'.now = s.now) : FifoInv s' := by
  intro i d
  obtain ⟨h1, h2, h3, h4, h5⟩ := hf i d
  have hjoins : joinsOf i d s' = joinsOf i d s := by unfold joinsOf; rw [hgh]
  by_cases hc : i = irel ∧ d = (s.inters irel).phase
  · obtain ⟨hi, hd⟩ := hc
    subst hi
    subst hd
    rw [heq] at h1
    have hrels : relsOf i ((s.inters i).phase) s'
        = relsOf i ((s.inters i).phase) s
          ++ [⟨i, (s.inters i).phase, v, tj, s.now⟩] := by
      unfold relsOf
      rw [hgr, List.filter_append]
      congr 1
      simp
    have hqq := hq i ((s.inters i).phase)
    rw [if_pos ⟨rfl, rfl⟩] at hqq
    refine ⟨?_, ?_, ?_, ?_, ?_⟩
    · rw [hrels, hjoins, hqq, List.map_append, List.append_assoc]
      simpa using h1
    · rw [hrels]
      exact pairwise_append_right h2 fun r hr => h3 r hr
    · rw [hrels, hnow]
      intro r hr
      rcases List.mem_append.mp hr with hr | hr
      · exact h3 r hr
      · rw [List.mem_singleton] at hr
        subst hr
        exact le_rfl
    · rw [hjoins]
      exact h4
    · rw [hjoins, hnow]
      exact h5
  · have hrels : relsOf i d s' = relsOf i d s := by
      unfold relsOf
      rw [hgr, List.filter_append]
      have hnil : List.filter
          (fun r : RelRec T => decide (r.inter = i ∧ r.dir = d))
          [⟨irel, (s.inters irel).phase, v, tj, s.now⟩] = [] := by
        have hpred : ¬(irel = i ∧ (s.inters irel).phase = d) :=
          fun hp => hc ⟨hp.1.symm, hp.2.symm⟩
        simp [hpred]
      rw [hnil, List.append_nil]
    have hqq := hq i d
    rw [if_neg hc] at hqq
    rw [hrels, hjoins, hqq, hnow]
    exact ⟨h1, h2, h3, h4, h5⟩

/-- FIFO bookkeeping across one queue join by `vehicle_process`: the vehicle
is appended to both the join history and the store, stamped with the current
time. -/
theorem fifoInv_join {s s' : GState T} (hf : FifoInv s)
    (ia : Fin 4) (da : Phase) (v : Vid)
    (hgh : s'.ghJoins = s.ghJoins ++ [⟨ia, da, v, s.now⟩])
    (hgr : s'.ghRels = s.ghRels)
    (hq : ∀ (i : Fin 4) (d : Phase), (s'.inters i).queueOf d
      = if i = ia ∧ d = da then (s.inters i).queueOf d ++ [(v, s.now)]
        else (s.inters i).queueOf d)
    (hnow : s'.now = s.now) : FifoInv s' := by
  intro i d
  obtain ⟨h1, h2, h3, h4, h5⟩ := hf i d
  have hrels : relsOf i d s' = relsOf i d s := by unfold relsOf; rw [hgr]
  by_cases hc : i = ia ∧ d = da
  · obtain ⟨hi, hd⟩ := hc
    subst hi
    subst hd
    have hjoins : joinsOf i d s' = joinsOf i d s ++ [(v, s.now)] := by
      unfold joinsOf
      rw [hgh, List.filter_append, List.map_append]
      congr 1
      simp
    have hqq := hq i d
    rw [if_pos ⟨rfl, rfl⟩] at hqq
    refine ⟨?_, ?_, ?_, ?_, ?_⟩
    · rw [hrels, hjoins, hqq, ← List.append_assoc, h1]
    · rw [hrels]
      exact h2
    · rw [hrels, hnow]
      exact h3
    · rw [hjoins]
      exact pairwise_append_right h4 fun x hx => h5 x hx
    · rw [hjoins, hnow]
      intro j hj
      rcases List.mem_append.mp hj with hj | hj
      · exact h5 j hj
      · rw [List.mem_singleton] at hj
        subst hj
        exact le_rfl
  · have hjoins : joinsOf i d s' = joinsOf i d s := by
      unfold joinsOf
      rw [hgh, List.filter_append]
      have hnil : List.filter
          (fun r : JoinRec T => decide (r.inter = i ∧ r.dir = d))
          [⟨ia, da, v, s.now⟩] = [] := by
        have hpred : ¬(ia = i ∧ da = d) :=
          fun hp => hc ⟨hp.1.symm, hp.2.symm⟩
        simp [hpred]
      rw [hnil, List.append_nil]
    have hqq := hq i d
    rw [if_neg hc] at hqq
    rw [hrels, hjoins, hqq, hnow]
    exact ⟨h1, h2, h3, h4, h5⟩

/-- The FIFO bookkeeping is preserved by every process body. -/
theorem fifo_exec (cfg : GCfg T) {s : GState T} (p : Proc)
    (hf : FifoInv s) : FifoInv (exec cfg s p) := by
  cases p with
  | sigP isig =>
    simp only [exec, execSig]
    split_ifs with hsw
    · refine fifoInv_of_eq hf rfl rfl (fun i d => ?_) rfl
      show ((updInter isig
          (fun st => { st with phase := st.phase.flip, phase_start := s.now })
          s).inters i).queueOf d = (s.inters i).queueOf d
      rw [updInter_inters]
      split_ifs with hii
      · cases d <;> rfl
      · rfl
    · exact fifoInv_of_eq hf rfl rfl (fun i d => rfl) rfl
  | relP irel =>
    simp only [exec, execRel]
    split
    · exact fifoInv_of_eq hf rfl rfl (fun i d => rfl) rfl
    · rename_i v tj rest heq
      refine fifoInv_release hf irel v tj rest heq rfl rfl (fun i d => ?_) rfl
      show ((updInter irel (fun st2 => st2.setQueue st2.phase rest)
          s).inters i).queueOf d = _
      rw [updInter_inters]
      by_cases hii : i = irel
      · subst hii
        rw [if_pos rfl, queueOf_setQueue]
        by_cases hd : d = (s.inters i).phase
        · rw [if_pos hd, if_pos ⟨rfl, hd⟩]
        · rw [if_neg hd, if_neg fun hp => hd hp.2]
      · rw [if_neg hii, if_neg fun hp => hii hp.1]
  | fairP ifa =>
    refine fifoInv_of_eq hf rfl rfl (fun i d => ?_) rfl
    show ((updInter ifa fairTick s).inters i).queueOf d = (s.inters i).queueOf d
    rw [updInter_inters]
    split_ifs with hii
    · exact fairTick_queueOf _ _
    · rfl
  | genStart g => exact fifoInv_of_eq hf rfl rfl (fun i d => rfl) rfl
  | genP g => exact fifoInv_of_eq hf rfl rfl (fun i d => rfl) rfl
  | monP => exact fifoInv_of_eq hf rfl rfl (fun i d => rfl) rfl
  | vehGo v => exact fifoInv_of_eq hf rfl rfl (fun i d => rfl) rfl
  | vehArrive v =>
    simp only [exec, execVehArrive]
    split
    · exact hf
    · split
      · exact hf
      · rename_i vs hlook pr ia da hroute
        refine fifoInv_join hf ia da v rfl rfl (fun i d => ?_) rfl
        show ((updInter ia (fun st => st.pushQueue da (v, s.now))
            s).inters i).queueOf d = _
        rw [updInter_inters]
        by_cases hii : i = ia
        · subst hii
          rw [if_pos rfl, IState.pushQueue, queueOf_setQueue]
          by_cases hd : d = da
          · subst hd
            rw [if_pos rfl, if_pos ⟨rfl, rfl⟩]
          · rw [if_neg hd, if_neg fun hp => hd hp.2]
        · rw [if_neg hii, if_neg fun hp => hii hp.1]
  | vehRel v =>
    simp only [exec, execVehRel]
    split
    · exact hf
    · split_ifs
      · exact fifoInv_of_eq hf rfl rfl (fun i d => rfl) rfl
      · exact fifoInv_of_eq hf rfl rfl (fun i d => rfl) rfl

/-- The FIFO bookkeeping is preserved by every kernel step (advancing the
clock keeps the time bounds because no pending wakeup is in the past). -/
theorem fifo_step {cfg : GCfg T} {h : T} {s s' : GState T}
    (hs : (gridDES cfg).StepH h s s') (ht : TimeOk s) (hf : FifoInv s) :
    FifoInv s' := by
  obtain ⟨e, hn, _, rfl⟩ := hs
  have hte : s.now ≤ e.time := ht e hn.1
  have hf0 : FifoInv { s with now := e.time, events := s.events.erase e } := by
    intro i d
    obtain ⟨h1, h2, h3, h4, h5⟩ := hf i d
    exact ⟨h1, h2, fun r hr => (h3 r hr).trans hte, h4,
      fun j hj => (h5 j hj).trans hte⟩
  exact fifo_exec cfg e.proc hf0

theorem fifo_trace {cfg : GCfg T} (hserv : 0 ≤ cfg.serv)
    (hstream : ∀ k, 0 ≤ cfg.stream k) {h : T} :
    ∀ {n : ℕ} {s s' : GState T}, TimeOk s → FifoInv s →
      (gridDES cfg).TraceH h s n s' → FifoInv s' := by
  intro n
  induction n with
  | zero =>
    intro s s' _ hf tr
    cases tr
    exact hf
  | succ n ih =>
    intro s s' ht hf tr
    cases tr with
    | step hs tr' =>
      exact ih (timeOk_step hserv hstream hs) (fifo_step hs ht hf) tr'

theorem fifo_init : FifoInv (gridInit T) := by
  intro i d
  have hq : ((gridInit T).inters i).queueOf d = [] := by cases d <;> rfl
  refine ⟨?_, List.Pairwise.nil, ?_, List.Pairwise.nil, ?_⟩
  · rw [hq]
    rfl
  · intro r hr
    exact absurd hr (List.not_mem_nil r)
  · intro j hj
    exact absurd hj (List.not_mem_nil j)

end FifoLemmas

/-- C2: FIFO fairness.  In any reachable state of any grid run (with
non-negative service time and non-negative sampled durations): if vehicle `X`
joined the direction-`d` store of intersection `i` strictly before vehicle
`Y` (both joins on record) and `Y` has been released at time `trY`, then `X`
was released from the same store at some earlier-or-equal time `trX`.  The
release loop dequeues the FIFO store one vehicle per service tick, so joins
are served in order at non-decreasing times. -/
theorem store_release_fifo {T : Type} [LinearOrderedCommRing T] (cfg : GCfg T)
    (hserv : 0 ≤ cfg.serv) (hstream : ∀ k, 0 ≤ cfg.stream k) (h : T)
    {n : ℕ} {s' : GState T}
    (tr : (gridDES cfg).TraceH h (gridInit T) n s')
    (i : Fin 4) (d : Phase) (X Y : Vid) (tjX tjY trY : T)
    (hX : (⟨i, d, X, tjX⟩ : JoinRec T) ∈ s'.ghJoins)
    (_hY : (⟨i, d, Y, tjY⟩ : JoinRec T) ∈ s'.ghJoins)
    (hlt : tjX < tjY)
    (hYr : (⟨i, d, Y, tjY, trY⟩ : RelRec T) ∈ s'.ghRels) :
    ∃ trX : T, (⟨i, d, X, tjX, trX⟩ : RelRec T) ∈ s'.ghRels ∧ trX ≤ trY := by
  have hfifo : FifoInv s' := fifo_trace hserv hstream timeOk_init fifo_init tr
  obtain ⟨h1, h2, h3, h4, h5⟩ := hfifo i d
  have hYrels : (⟨i, d, Y, tjY, trY⟩ : RelRec T) ∈ relsOf i d s' := by
    unfold relsOf
    rw [List.mem_filter]
    exact ⟨hYr, by simp⟩
  obtain ⟨q, hqR, hq⟩ := List.mem_iff_getElem.mp hYrels
  have hXj : ((X, tjX) : Vid × T) ∈ joinsOf i d s' := by
    unfold joinsOf
    exact List.mem_map.mpr ⟨⟨i, d, X, tjX⟩, List.mem_filter.mpr ⟨hX, by simp⟩, rfl⟩
  obtain ⟨p, hpJ, hp⟩ := List.mem_iff_getElem.mp hXj
  have hlen : (relsOf i d s').length + ((s'.inters i).queueOf d).length
      = (joinsOf i d s').length := by
    rw [← h1, List.length_append, List.length_map]
  have hqJ : q < (joinsOf i d s').length := by omega
  have hbq : q < ((relsOf i d s').map fun r => (r.vid, r.tj)).length := by
    rw [List.length_map]
    exact hqR
  have hJq : (joinsOf i d s')[q] = (Y, tjY) := by
    have e1 := List.getElem_of_eq h1.symm hqJ
    rw [e1, List.getElem_append_left hbq, List.getElem_map, hq]
  have hpq : p < q := by
    rcases Nat.lt_trichotomy p q with hlt2 | heq2 | hgt2
    · exact hlt2
    · exfalso
      subst heq2
      have hcmb : ((Y, tjY) : Vid × T) = (X, tjX) := hJq.symm.trans hp
      have hsnd : tjY = tjX := congrArg Prod.snd hcmb
      rw [hsnd] at hlt
      exact lt_irrefl _ hlt
    · exfalso
      have hpair := List.pairwise_iff_getElem.mp h4 q p hqJ hpJ hgt2
      rw [hJq, hp] at hpair
      exact absurd hlt (not_lt.mpr hpair)
  have hpR : p < (relsOf i d s').length := lt_trans hpq hqR
  have hbp : p < ((relsOf i d s').map fun r => (r.vid, r.tj)).length := by
    rw [List.length_map]
    exact hpR
  have hJp : (joinsOf i d s')[p]
      = ((relsOf i d s')[p].vid, (relsOf i d s')[p].tj) := by
    have e1 := List.getElem_of_eq h1.symm hpJ
    rw [e1, List.getElem_append_left hbp, List.getElem_map]
  have hcomp : ((relsOf i d s')[p].vid, (relsOf i d s')[p].tj) = (X, tjX) :=
    hJp.symm.trans hp
  have hvid : (relsOf i d s')[p].vid = X := congrArg Prod.fst hcomp
  have htj : (relsOf i d s')[p].tj = tjX := congrArg Prod.snd hcomp
  have hmemF : (relsOf i d s')[p] ∈ relsOf i d s' := List.getElem_mem _
  have hdirs : (relsOf i d s')[p].inter = i ∧ (relsOf i d s')[p].dir = d := by
    have hmf := (List.mem_filter.mp hmemF).2
    simpa using hmf
  have hmemG : (relsOf i d s')[p] ∈ s'.ghRels := List.mem_of_mem_filter hmemF
  have htr : (relsOf i d s')[p].tr ≤ (relsOf i d s')[q].tr :=
    List.pairwise_iff_getElem.mp h2 p q hpR hqR hpq
  have htrY : (relsOf i d s')[q].tr = trY := by rw [hq]
  rcases hRp : (relsOf i d s')[p] with ⟨a, b, c, e0, f0⟩
  rw [hRp] at hvid htj hdirs hmemG htr
  obtain ⟨ha, hb⟩ := hdirs
  subst ha
  subst hb
  subst hvid
  subst htj
  exact ⟨f0, hmemG, htrY ▸ htr⟩

set_option maxRecDepth 100000 in
/-- Witness for `store_release_fifo`: a concrete run in which vehicles (2,1)
and (2,2) join A's NS store at t = 2 and t = 3; vehicle (2,2) is released at
t = 6, and the theorem yields a release of (2,1) at some time ≤ 6. -/
theorem store_release_fifo_witness :
    (gridDES c2Cfg).TraceH 7 (gridInit ℤ) 93 c2Final ∧
      (⟨0, Phase.NS, (2, 1), 2⟩ : JoinRec ℤ) ∈ c2Final.ghJoins ∧
      (⟨0, Phase.NS, (2, 2), 3⟩ : JoinRec ℤ) ∈ c2Final.ghJoins ∧
      (2 : ℤ) < 3 ∧
      (⟨0, Phase.NS, (2, 2), 3, 6⟩ : RelRec ℤ) ∈ c2Final.ghRels ∧
      ∃ trX : ℤ, (⟨0, Phase.NS, (2, 1), 2, trX⟩ : RelRec ℤ) ∈ c2Final.ghRels ∧
        trX ≤ 6 := by
  have hrun : (gridDES c2Cfg).runSteps 7 93 (gridInit ℤ) = some c2Final := by
    have hsome : ((gridDES c2Cfg).runSteps 7 93 (gridInit ℤ)).isSome = true := by
      decide
    unfold c2Final
    cases hx : (gridDES c2Cfg).runSteps (7 : ℤ) 93 (gridInit ℤ) with
    | none => rw [hx] at hsome; cases hsome
    | some v => rfl
  have htr := (gridDES c2Cfg).runSteps_sound hrun
  have hX : (⟨0, Phase.NS, (2, 1), 2⟩ : JoinRec ℤ) ∈ c2Final.ghJoins := by decide
  have hY : (⟨0, Phase.NS, (2, 2), 3⟩ : JoinRec ℤ) ∈ c2Final.ghJoins := by decide
  have hYr : (⟨0, Phase.NS, (2, 2), 3, 6⟩ : RelRec ℤ) ∈ c2Final.ghRels := by decide
  refine ⟨htr, hX, hY, by norm_num, hYr, ?_⟩
  exact store_release_fifo c2Cfg (by decide)
    (fun k => by
      show (0 : ℤ) ≤ if k = 0 ∨ k = 1 ∨ k = 3 ∨ k = 6 then (10000 : ℤ) else 1
      split_ifs <;> decide) 7 htr
    0 Phase.NS (2, 1) (2, 2) 2 3 6 hX hY (by norm_num) hYr

end AiCity
